import Mathlib

/-!
Verification development for the jensen repository: a versioned,
content-addressed time-series storage engine.  The embedding below
translates, from the source:

* `src/lakota/commit.py` — the commit index and its overlay-update algebra
  (`Commit.one`, `Commit.split`, `Commit.at`, `Commit.update`,
  `Commit.head`/`tail`/`concat`);
* `src/baltic/changelog.py` — the concurrent revision log (`commit`, `log`,
  `walk`, `leaf`, `pull`);
* `src/baltic/series.py` — the recursive read planner (`intersect`,
  `Series._read`);
* `src/lakota/pod.py` — the in-memory pod (`MemPOD.write`, `MemPOD.read`);
* `src/lakota/repo.py` — the garbage-collection sweep (`Repo.gc`).

Index tuples are embedded as `List Int`, labels as `String`, file names and
digests as `List Char`.  Commits are embedded as their list of rows (the
source stores the same rows as parallel columnar arrays; `Commit.at`
materialises row `pos`, `head`/`tail`/`slice` are positional, so the row
list carries exactly the same information).
-/

namespace Jensen

/-- Index tuples (one entry per index column), compared the way Python
compares tuples: lexicographically, a strict prefix being smaller. -/
abbrev Idx := List Int

/-- Python `<` on tuples of index values (lexicographic). -/
def idxLt : Idx → Idx → Bool
  | [], [] => false
  | [], _ :: _ => true
  | _ :: _, [] => false
  | a :: as, b :: bs => decide (a < b) || (decide (a = b) && idxLt as bs)

/-- Python `<=` on tuples of index values. -/
def idxLe (x y : Idx) : Bool := idxLt x y || decide (x = y)

/-- Python `<` on strings: lexicographic on the code points. -/
def strLt (a b : String) : Bool := decide (a.data < b.data)

/-- Python `<` on `(label, index-tuple)` pairs, as used by
`Commit.update`/`Commit.split` on `(label,) + start` keys. -/
def lpLt (x y : String × Idx) : Bool :=
  strLt x.1 y.1 || (decide (x.1 = y.1) && idxLt x.2 y.2)

/-- Python `<=` on `(label, index-tuple)` pairs. -/
def lpLe (x y : String × Idx) : Bool := lpLt x y || decide (x = y)

/-- Decidable equality for `Except`, so that concrete runs of fallible
operations can be checked by `decide`. -/
instance {ε α : Type} [DecidableEq ε] [DecidableEq α] : DecidableEq (Except ε α) := fun x y =>
  match x, y with
  | .ok a, .ok b =>
      if h : a = b then isTrue (by rw [h]) else isFalse (by intro hh; cases hh; exact h rfl)
  | .error a, .error b =>
      if h : a = b then isTrue (by rw [h]) else isFalse (by intro hh; cases hh; exact h rfl)
  | .ok _, .error _ => isFalse (by intro hh; cases hh)
  | .error _, .ok _ => isFalse (by intro hh; cases hh)

/-! ## The commit index (`src/lakota/commit.py`) -/

/-- The closure tag of a segment: which of its two endpoints are included.
The source stores the strings `"left"`, `"right"`, `"both"` and Python
`None` (for neither). -/
inductive Closed where
  | left
  | right
  | both
  | neither
deriving DecidableEq

/-- One row of a commit: `Commit.at(pos)` in the source returns exactly
these fields (`label`, `start`, `stop`, per-column `digest` tuple,
`length`, `closed`). -/
structure Row where
  label : String
  start : Idx
  stop : Idx
  digest : List String
  length : Nat
  closed : Closed
deriving DecidableEq

/-- A commit, as its sequence of rows.  The source keeps the same rows in
parallel columnar arrays; `at`, `head`, `tail`, `slice` and `concat` are
purely positional, so a commit is faithfully represented by its row list. -/
abbrev Commit := List Row

/-- `Commit.one`: build a length-1 commit. -/
def Commit.one (label : String) (start stop : Idx) (digest : List String)
    (length : Nat) (closed : Closed) : Commit :=
  [⟨label, start, stop, digest, length, closed⟩]

/-- Modelled from the spec: `Frame.index(key, right=False)` of the absent
`src/lakota/frame.py`, i.e. `bisect_left`: on a sorted key list, the number
of keys strictly below `key` (the spec states
`start_pos = bisect_left(rows.stop, (label, start))`). -/
def bisectLeft : List (String × Idx) → (String × Idx) → Nat
  | [], _ => 0
  | k :: ks, key => if lpLt k key then bisectLeft ks key + 1 else 0

/-- Modelled from the spec: `Frame.index(key, right=True)` of the absent
`src/lakota/frame.py`, i.e. `bisect_right`: on a sorted key list, the
number of keys at or below `key` (the spec states
`stop_pos = bisect_right(rows.start, (label, stop)) − 1`; the source's
`Commit.update` applies the `− 1` itself). -/
def bisectRight : List (String × Idx) → (String × Idx) → Nat
  | [], _ => 0
  | k :: ks, key => if lpLe k key then bisectRight ks key + 1 else 0

/-- `Commit.split(label, start, stop)`: bisect the `(label, stop)` keys at
`(label, start)` from the left and the `(label, start)` keys at
`(label, stop)` from the right. -/
def Commit.split (c : Commit) (label : String) (start stop : Idx) : Nat × Nat :=
  (bisectLeft (c.map fun r => (r.label, r.stop)) (label, start),
   bisectRight (c.map fun r => (r.label, r.start)) (label, stop))

/-- `Commit.at(pos)` with Python index semantics: a negative `pos` counts
from the end (the source adds `len(self)` to it). -/
def Commit.atI (c : Commit) (pos : Int) : Option Row :=
  let p : Int := if pos < 0 then pos + c.length else pos
  if p < 0 then none else c.get? p.toNat

/-- Closure of the left neighbour clipped by `Commit.update`:
`"left" if closed in ("left", "both") else None`. -/
def leftClip (cl : Closed) : Closed :=
  if cl = Closed.left ∨ cl = Closed.both then Closed.left else Closed.neither

/-- Closure of the right neighbour clipped by `Commit.update`:
`"right" if closed in ("right", "both") else None`. -/
def rightClip (cl : Closed) : Closed :=
  if cl = Closed.right ∨ cl = Closed.both then Closed.right else Closed.neither

/-- The full-overwrite test of `Commit.update`:
`(label, start) <= (first label, first start)` and
`(label, stop) >= (last label, last stop)`. -/
def Commit.fullCover (c : Commit) (label : String) (start stop : Idx) : Bool :=
  match c.head?, c.getLast? with
  | some r0, some rl =>
      lpLe (label, start) (r0.label, r0.start) && lpLe (rl.label, rl.stop) (label, stop)
  | _, _ => false

/-- The body of `Commit.update` after its range check (every path of the
source past the `raise` returns a commit).  Mirrors the source line by
line: empty receiver and full overwrite return the singleton; otherwise the
rows at `start_pos` and `stop_pos = bisect_right − 1` are clipped when they
straddle the new range, an empty clipped row (`start == stop`) is dropped,
and the result is `concat(head, inner, tail)` — where, as in the source,
the clipped left row is appended after `head(start_pos)` and the clipped
right row is appended after `tail(stop_pos + 1)`. -/
def Commit.updateRows (c : Commit) (label : String) (start stop : Idx)
    (digest : List String) (length : Nat) (closed : Closed) : Commit :=
  let inner := Commit.one label start stop digest length closed
  if c.isEmpty then inner
  else if Commit.fullCover c label start stop then inner
  else
    let sp := Commit.split c label start stop
    let startPos := sp.1
    let fallbackHead := c.take startPos
    let head :=
      if startPos < c.length then
        match c.get? startPos with
        | some startRow =>
            if idxLe start startRow.stop && idxLe startRow.stop stop then
              let clipped : Row :=
                { startRow with stop := start, closed := leftClip startRow.closed }
              if idxLt clipped.start clipped.stop then fallbackHead ++ [clipped]
              else fallbackHead
            else fallbackHead
        | none => fallbackHead
      else fallbackHead
    let stopPos : Int := (sp.2 : Int) - 1
    let fallbackTail := c.drop (stopPos + 1).toNat
    let tail :=
      if stopPos < (c.length : Int) then
        match Commit.atI c stopPos with
        | some stopRow =>
            if idxLe start stopRow.start && idxLe stopRow.start stop then
              let clipped : Row :=
                { stopRow with start := stop, closed := rightClip stopRow.closed }
              if idxLt clipped.start clipped.stop then fallbackTail ++ [clipped]
              else fallbackTail
            else fallbackTail
        | none => fallbackTail
      else fallbackTail
    head ++ inner ++ tail

/-- `Commit.update`: raises `ValueError` (here `Except.error`) when
`not start <= stop`, otherwise returns the updated commit. -/
def Commit.update (c : Commit) (label : String) (start stop : Idx)
    (digest : List String) (length : Nat) (closed : Closed) : Except String Commit :=
  if !(idxLe start stop) then Except.error "Invalid range"
  else Except.ok (Commit.updateRows c label start stop digest length closed)

/-- Does the row include its right endpoint? -/
def Row.includesRight (r : Row) : Bool :=
  r.closed = Closed.right || r.closed = Closed.both

/-- Does the row include its left endpoint? -/
def Row.includesLeft (r : Row) : Bool :=
  r.closed = Closed.left || r.closed = Closed.both

/-- Two adjacent commit rows are correctly ordered: the labels increase, or
within one label the earlier row ends before the later one starts (touching
ranges are allowed only when at most one of the two boundary closures
includes the shared point). -/
def adjOk (r1 r2 : Row) : Bool :=
  strLt r1.label r2.label ||
    (decide (r1.label = r2.label) &&
      (idxLt r1.stop r2.start ||
        (decide (r1.stop = r2.start) && !(Row.includesRight r1 && Row.includesLeft r2))))

/-- The commit invariant stated by the spec: each row has `start ≤ stop`,
rows are sorted by `(label, start)`, and rows of one label do not
overlap. -/
def commitWellFormed : Commit → Bool
  | [] => true
  | [r] => idxLe r.start r.stop
  | r1 :: r2 :: rest =>
      idxLe r1.start r1.stop && adjOk r1 r2 && commitWellFormed (r2 :: rest)

/-! ## The changelog (`src/baltic/changelog.py`)

Revision file names and digests are embedded as `List Char`; names are
compared lexicographically (Python compares strings by code point). -/

/-- File names, digests and timestamps: strings as their character lists. -/
abbrev Name := List Char

/-- The separator used by `Changelog.commit` (`".".join((parent, key))`)
and by `Changelog.log` (`name.split(".")`). -/
def dotChar : Char := '.'

/-- `phi = "0" * 40`: the sentinel parent of root revisions. -/
def phi : Name := List.replicate 40 '0'

/-- Python `name.split(".")`: split a string at every dot (the empty string
yields `[""]`, so the result is always non-empty). -/
def splitDot : Name → List Name
  | [] => [[]]
  | c :: cs =>
      let rest := splitDot cs
      if c = dotChar then [] :: rest
      else
        match rest with
        | [] => [[c]]
        | r :: rs => (c :: r) :: rs

/-- Python `name.split(".", 1)`: split at the first dot only; `none` when
there is no dot (in which case `split(".", 1)[1]` would raise). -/
def splitFirstDot : Name → Option (Name × Name)
  | [] => none
  | c :: cs =>
      if c = dotChar then some ([], cs)
      else
        match splitFirstDot cs with
        | some pr => some (c :: pr.1, pr.2)
        | none => none

/-- Append `child` to the children list of `parent`, keeping first-insertion
order of parents (Python `defaultdict(list)` with `log[parent].append(child)`). -/
def addChild (l : List (Name × List Name)) (p c : Name) : List (Name × List Name) :=
  match l with
  | [] => [(p, [c])]
  | e :: rest => if e.1 = p then (e.1, e.2 ++ [c]) :: rest else e :: addChild rest p c

/-- `Changelog.log()`: build the `parent → [children]` map from the listed
file names, skipping every revision whose parent equals its child (source:
`if parent == child: continue`).  A name that does not split into exactly
`parent.child` would make the source's tuple unpacking raise; such names are
never produced by `commit` and are skipped here. -/
def logOf (names : List Name) : List (Name × List Name) :=
  names.foldl
    (fun l n =>
      match splitDot n with
      | [p, c] => if p = c then l else addChild l p c
      | _ => l)
    []

/-- `log.get(parent, [])`. -/
def getChildren (l : List (Name × List Name)) (p : Name) : List Name :=
  match l.find? (fun e => decide (e.1 = p)) with
  | some e => e.2
  | none => []

/-- `Changelog._walk(log, parent)`: depth-first traversal, yielding
`f"{parent}.{child}"` before recursing into `child`.  The source recurses
without bound (and would diverge on a cyclic log); here `fuel` bounds the
recursion depth, and any `fuel` larger than the depth of the (acyclic)
revision graph gives the source's traversal. -/
def walkAux (log : List (Name × List Name)) : Nat → Name → List Name
  | 0, _ => []
  | fuel + 1, parent =>
      ((getChildren log parent).map
        (fun child => (parent ++ dotChar :: child) :: walkAux log fuel child)).flatten

/-- `Changelog.walk()`: depth-first traversal from the zero-hash root. -/
def walkNames (files : List Name) (fuel : Nat) : List Name :=
  walkAux (logOf files) fuel phi

/-- `Changelog.leaf()`: the last element of the walk (or `None`).  A depth
budget of `files.length + 1` covers every acyclic revision graph. -/
def leafOf (files : List Name) : Option Name :=
  (walkNames files (files.length + 1)).getLast?

/-! ## Pods holding the changelog files

Modelled from the spec: the object store under the baltic changelog (its
pod class is not under `src/baltic/`).  The spec describes a flat
key/value store whose `write` is a no-op on an existing key and whose `ls`
enumerates keys; listing is deterministic and lexicographic (the store
keeps its keys sorted).  The payload type is left abstract. -/

/-- A flat pod: files as a key-sorted association list. -/
structure BPod (V : Type) where
  files : List (Name × V)

/-- Insert a file into the key-sorted file list; a no-op when the key is
already present (writes never overwrite). -/
def insertFile {V : Type} : List (Name × V) → Name → V → List (Name × V)
  | [], n, d => [(n, d)]
  | f :: fs, n, d =>
      if f.1 = n then f :: fs
      else if n < f.1 then (n, d) :: f :: fs
      else f :: insertFile fs n d

/-- `pod.write(name, data)`. -/
def BPod.write {V : Type} (p : BPod V) (n : Name) (d : V) : BPod V :=
  ⟨insertFile p.files n d⟩

/-- `pod.ls()`: the stored keys, in lexicographic order. -/
def BPod.keys {V : Type} (p : BPod V) : List Name :=
  p.files.map Prod.fst

/-- `pod.read(name)`. -/
def BPod.read {V : Type} (p : BPod V) (n : Name) : Option V :=
  (p.files.find? (fun f => decide (f.1 = n))).map Prod.snd

/-- The pod invariant: keys strictly sorted (hence no duplicates). -/
def BPod.wf {V : Type} (p : BPod V) : Prop :=
  List.Pairwise (fun a b : Name × V => a.1 < b.1) p.files

/-- `Changelog.commit(items, parent)`: resolve the parent (the explicit
argument, else the part of the current leaf name after its first dot, else
`phi`), name the new file `parent + "." + hash(items)` and write it.
Returns the new pod contents and the file name.  The digest function
(`sha1(...).hexdigest()` in the source) is a parameter. -/
def chlogCommit (h : List String → Name) (pod : BPod (List String))
    (items : List String) (parentArg : Option Name) : BPod (List String) × Name :=
  let parent :=
    match parentArg with
    | some p => p
    | none =>
        match leafOf (BPod.keys pod) with
        | none => phi
        | some lf =>
            match splitFirstDot lf with
            | some pr => pr.2
            | none => []
  let key := h items
  let filename := parent ++ dotChar :: key
  (BPod.write pod filename items, filename)

/-- A stand-in content digest used for concrete runs: forty hex
characters, as `sha1(...).hexdigest()` always returns. -/
def demoHash : List String → Name := fun _ => List.replicate 40 'a'

/-- `Changelog.pull(remote)`: walk the remote revisions; copy (verbatim)
every file whose name is not among the local names listed before the loop
(`local_revs = list(self)`). -/
def chlogPull {V : Type} (l r : BPod V) : BPod V :=
  r.files.foldl
    (fun acc f => if f.1 ∈ BPod.keys l then acc else BPod.write acc f.1 f.2) l

/-! ## The read planner (`src/baltic/series.py`) -/

/-- One revision info, as decoded by `Series.read` from a changelog entry:
`start`/`stop` index tuples (the source's JSON fields `start`/`end`) and
the column digests.  `len` is the row count of the segment the info refers
to — modelled from the spec (`src/baltic/segment.py` is absent): it is the
value of `len(Segment.from_pod(schema, pod, info["columns"]))`, used by
`Series._read` to decrement `limit`. -/
structure RevInfo where
  start : Idx
  stop : Idx
  columns : List String
  len : Nat
deriving DecidableEq

/-- `intersect(info, start, end)` from `src/baltic/series.py`: `None` when
the revision range misses `[start, end]`, else the clipped match
`(max(info["start"], start), min(info["end"], end))`.  An empty tuple
means an unbounded side (`not end` in the source). -/
def intersect (info : RevInfo) (start stop : Idx) : Option (Idx × Idx) :=
  let okStart := stop.isEmpty || idxLe info.start stop
  let okEnd := start.isEmpty || idxLe start info.stop
  if okStart && okEnd then
    some ((if idxLe start info.start then info.start else start),
          (if idxLe info.stop stop then info.stop else stop))
  else none

/-- A sliced segment as produced by `Series._read`:
`Segment.from_pod(...).slice(*match, closed="both")`. -/
structure SliceSeg where
  info : RevInfo
  sstart : Idx
  sstop : Idx
  closed : Closed
deriving DecidableEq

/-- `Series._read(series_info, start, end, limit)`: scan the revision infos
(already newest first); skip non-matching ones; on the first match, slice
it to the matched range, fill a left hole (`mstart > start`) from the
remaining (older) infos and prepend, fill a right hole (`mend < end`) from
the remaining infos and append — unless the decremented `limit` drops
below 1 — and stop scanning (the source `break`s). -/
def seriesRead : List RevInfo → Idx → Idx → Option Int → List SliceSeg
  | [], _, _, _ => []
  | info :: rest, start, stop, limit =>
      match intersect info start stop with
      | none => seriesRead rest start stop limit
      | some mt =>
          let sgm : SliceSeg := ⟨info, mt.1, mt.2, Closed.both⟩
          let segments := [sgm]
          let segments :=
            if idxLt start mt.1 then seriesRead rest start mt.1 limit ++ segments
            else segments
          if idxLt mt.2 stop then
            match limit with
            | some l =>
                if l - info.len < 1 then segments
                else segments ++ seriesRead rest mt.2 stop (some (l - info.len))
            | none => segments ++ seriesRead rest mt.2 stop none
          else segments

/-! ## The in-memory pod (`src/lakota/pod.py`, class `MemPOD`) -/

/-- A `MemPOD` store node: values are either bytes (a file) or another
store (a directory). -/
inductive MNode where
  | file (data : List Nat) : MNode
  | dir (entries : List (String × MNode)) : MNode

/-- Look a fragment up in a directory's entries (`frag in pod.store`). -/
def findEntry : List (String × MNode) → String → Option MNode
  | [], _ => none
  | e :: es, k => if e.1 = k then some e.2 else findEntry es k

/-- Replace the value stored under an existing fragment. -/
def setEntry : List (String × MNode) → String → MNode → List (String × MNode)
  | [], _, _ => []
  | e :: es, k, v => if e.1 = k then (k, v) :: es else e :: setEntry es k v

/-- `MemPOD.write(relpath, data)` with the path already split into
fragments: navigate to the parent directory, creating missing directories
on the way (`auto_mkdir=True`), then store the data under the last
fragment — unless that key is already present, in which case the write is
skipped (`if leaf in pod.store: return`).  Writing through a file node or
with an empty path would raise in the source and leaves the store
unchanged here. -/
def mwrite : MNode → List String → List Nat → MNode
  | node, [], _ => node
  | MNode.file d, _, _ => MNode.file d
  | MNode.dir es, [leaf], data =>
      match findEntry es leaf with
      | some _ => MNode.dir es
      | none => MNode.dir (es ++ [(leaf, MNode.file data)])
  | MNode.dir es, frag :: frag2 :: rest, data =>
      match findEntry es frag with
      | some child => MNode.dir (setEntry es frag (mwrite child (frag2 :: rest) data))
      | none => MNode.dir (es ++ [(frag, mwrite (MNode.dir []) (frag2 :: rest) data)])

/-- `MemPOD.read(relpath)`: navigate without creating anything; `none`
(`FileNotFoundError`) when the key is absent or is a directory. -/
def mread : MNode → List String → Option (List Nat)
  | MNode.dir es, [leaf] =>
      match findEntry es leaf with
      | some (MNode.file d) => some d
      | _ => none
  | MNode.dir es, frag :: frag2 :: rest =>
      match findEntry es frag with
      | some child => mread child (frag2 :: rest)
      | _ => none
  | _, _ => none

/-! ## The garbage-collection sweep (`src/lakota/repo.py`, `Repo.gc`) -/

/-- The fate of one file name during the GC sweep of `Repo.gc`.  `active`
is the set of digests referenced by reachable revisions; `nowTs` the
current `hextime()`; `deadline` the `hextime(time() - timeout)` cutoff.
A name listed in `active` is not in `inactive = all_dig - active_digests`
and is left alone.  An inactive plain name (no dot) is renamed to
`name.{nowTs}` (soft delete).  An inactive suffixed name `base.ext` is
left alone while `ext > deadline`, renamed back to `base` when `base` is
active again, and removed otherwise.  `none` stands for the source
raising on a name with more than one dot (`dig, ext = dig.split(".")`). -/
def gcSweepFile (active : List Name) (nowTs deadline : Name) (dig : Name) :
    Option (List Name) :=
  if dig ∈ active then some [dig]
  else if !(decide (dotChar ∈ dig)) then some [dig ++ dotChar :: nowTs]
  else
    match splitDot dig with
    | [base, ext] =>
        if deadline < ext then some [dig]
        else if base ∈ active then some [base]
        else some []
    | _ => none

/-- The whole sweep: the file names left on disk after `Repo.gc` processes
every listed name. -/
def gcSweep (active : List Name) (nowTs deadline : Name) : List Name → Option (List Name)
  | [] => some []
  | d :: ds =>
      match gcSweepFile active nowTs deadline d, gcSweep active nowTs deadline ds with
      | some r, some rs => some (r ++ rs)
      | _, _ => none

/-! ## Theorems -/

theorem bisectRight_le (ks : List (String × Idx)) (key : String × Idx) :
    bisectRight ks key ≤ ks.length := by
  induction ks with
  | nil => simp [bisectRight]
  | cons k ks ih =>
      simp only [bisectRight, List.length_cons]
      split
      · omega
      · omega

/-- Claim C9: `Commit.update` raises the invalid-range error exactly when
the requested `start` tuple is above the `stop` tuple (`not start <= stop`
in the source); when it errors, no commit is produced. -/
theorem update_error_iff_invalid_range (c : Commit) (label : String) (start stop : Idx)
    (digest : List String) (length : Nat) (closed : Closed) :
    (∃ e, Commit.update c label start stop digest length closed = Except.error e) ↔
      idxLe start stop = false := by
  unfold Commit.update
  cases h : idxLe start stop <;> simp [h]

/-- Claim C2: `Commit.update` returns exactly the singleton commit
`Commit.one` of the new row when the receiver is empty, and also when
`(label, start)` is at or below the first row's `(label, start)` and
`(label, stop)` at or above the last row's `(label, stop)` (full
overwrite). -/
theorem update_full_overwrite (c : Commit) (label : String) (start stop : Idx)
    (digest : List String) (length : Nat) (closed : Closed)
    (hrange : idxLe start stop = true) :
    (c = [] → Commit.update c label start stop digest length closed =
        Except.ok (Commit.one label start stop digest length closed)) ∧
    (∀ r0 rl, c.head? = some r0 → c.getLast? = some rl →
      lpLe (label, start) (r0.label, r0.start) = true →
      lpLe (rl.label, rl.stop) (label, stop) = true →
      Commit.update c label start stop digest length closed =
        Except.ok (Commit.one label start stop digest length closed)) := by
  constructor
  · intro hc
    subst hc
    simp [Commit.update, hrange, Commit.updateRows]
  · intro r0 rl h0 hl hle1 hle2
    have hne : c.isEmpty = false := by
      cases c with
      | nil => simp at h0
      | cons x xs => rfl
    have hfull : Commit.fullCover c label start stop = true := by
      unfold Commit.fullCover
      rw [h0, hl]
      simp [hle1, hle2]
    simp [Commit.update, hrange, Commit.updateRows, hne, hfull]

/-- Witness for `update_full_overwrite`: a concrete full overwrite of a
one-row commit returns the singleton. -/
theorem update_full_overwrite_witness :
    Commit.update [⟨"a", [5], [9], ["d"], 2, Closed.both⟩] "a" [1] [20] ["dn"] 4 Closed.both =
      Except.ok (Commit.one "a" [1] [20] ["dn"] 4 Closed.both) :=
  (update_full_overwrite [⟨"a", [5], [9], ["d"], 2, Closed.both⟩] "a" [1] [20] ["dn"] 4
      Closed.both (by decide)).2
    ⟨"a", [5], [9], ["d"], 2, Closed.both⟩ ⟨"a", [5], [9], ["d"], 2, Closed.both⟩
    (by decide) (by decide) (by decide) (by decide)

/-- Claim C1 (failing input): on the well-formed commit
`[(a, 5, 20, both), (a, 25, 30, both)]`, the in-range update
`update("a", 0, 10, ...)` returns
`[(a, 0, 10, both), (a, 25, 30, both), (a, 10, 20, right)]`, which is not
sorted by `(label, start)`: the source appends the clipped right
neighbour after `tail(stop_pos + 1)` instead of before it, so the
sortedness/non-overlap invariant is not preserved. -/
theorem update_breaks_invariant_example :
    commitWellFormed
        [⟨"a", [5], [20], ["d1"], 3, Closed.both⟩,
         ⟨"a", [25], [30], ["d2"], 3, Closed.both⟩] = true ∧
    idxLe [0] [10] = true ∧
    Commit.update
        [⟨"a", [5], [20], ["d1"], 3, Closed.both⟩,
         ⟨"a", [25], [30], ["d2"], 3, Closed.both⟩] "a" [0] [10] ["dn"] 5 Closed.both =
      Except.ok
        [⟨"a", [0], [10], ["dn"], 5, Closed.both⟩,
         ⟨"a", [25], [30], ["d2"], 3, Closed.both⟩,
         ⟨"a", [10], [20], ["d1"], 3, Closed.right⟩] ∧
    commitWellFormed
        [⟨"a", [0], [10], ["dn"], 5, Closed.both⟩,
         ⟨"a", [25], [30], ["d2"], 3, Closed.both⟩,
         ⟨"a", [10], [20], ["d1"], 3, Closed.right⟩] = false :=
  ⟨by decide, by decide, by decide, by decide⟩

/-- Claim C3: when `Commit.update` partially overlaps existing rows, the
row at `start_pos` whose `stop` falls inside the new range keeps its
`start` and has its `stop` clipped to the new `start` with closure
weakened by `leftClip` (`both→left`, `right→neither`, `left→left`,
`neither→neither`); the row at `stop_pos` whose `start` falls inside the
new range has its `start` clipped to the new `stop` with closure weakened
by `rightClip` (`both→right`, `left→neither`, `right→right`,
`neither→neither`); the mappings do not depend on the incoming row's
closure; a clipped row with `start == stop` is dropped; and the result is
the concatenation `head · singleton · tail`. -/
theorem update_partial_overlap_clips (c : Commit) (label : String) (start stop : Idx)
    (digest : List String) (length : Nat) (closed : Closed) (sr tr : Row)
    (hrange : idxLe start stop = true)
    (hne : c.isEmpty = false)
    (hfull : Commit.fullCover c label start stop = false)
    (hsr : c.get? (Commit.split c label start stop).1 = some sr)
    (hsrclip : (idxLe start sr.stop && idxLe sr.stop stop) = true)
    (htr : Commit.atI c ((Commit.split c label start stop).2 - 1) = some tr)
    (htrclip : (idxLe start tr.start && idxLe tr.start stop) = true) :
    Commit.update c label start stop digest length closed =
      Except.ok
        ((c.take (Commit.split c label start stop).1 ++
            (if idxLt sr.start start
             then [{ sr with stop := start, closed := leftClip sr.closed }] else [])) ++
          Commit.one label start stop digest length closed ++
          (c.drop (Commit.split c label start stop).2 ++
            (if idxLt stop tr.stop
             then [{ tr with start := stop, closed := rightClip tr.closed }] else []))) ∧
    (leftClip Closed.both = Closed.left ∧ leftClip Closed.right = Closed.neither ∧
      leftClip Closed.left = Closed.left ∧ leftClip Closed.neither = Closed.neither) ∧
    (rightClip Closed.both = Closed.right ∧ rightClip Closed.left = Closed.neither ∧
      rightClip Closed.right = Closed.right ∧ rightClip Closed.neither = Closed.neither) := by
  refine ⟨?_, by decide, by decide⟩
  have hlt : (Commit.split c label start stop).1 < c.length := by
    rcases List.get?_eq_some.mp hsr with ⟨h, _⟩
    exact h
  have hguard : ((Commit.split c label start stop).2 : Int) - 1 < (c.length : Int) := by
    have := bisectRight_le (c.map fun r => (r.label, r.start)) (label, stop)
    simp only [List.length_map] at this
    have h2 : (Commit.split c label start stop).2 ≤ c.length := this
    omega
  have hdrop : (((Commit.split c label start stop).2 : Int) - 1 + 1).toNat =
      (Commit.split c label start stop).2 := by omega
  unfold Commit.update
  rw [hrange]
  simp only [Bool.not_true, Bool.false_eq_true, if_false]
  congr 1
  unfold Commit.updateRows
  rw [hne, hfull]
  simp only [Bool.false_eq_true, if_false]
  rw [if_pos hlt, hsr, if_pos hguard, htr, hdrop]
  simp only [hsrclip, htrclip, if_true]
  cases h1 : idxLt sr.start start <;> cases h2 : idxLt stop tr.stop <;> simp [h1, h2]

/-- Witness for `update_partial_overlap_clips`: updating the middle range
`[5, 15]` of `[(a, 0, 10, both), (a, 10, 20, right)]` clips both
neighbours and weakens their closures (`both→left`, `right→right`). -/
theorem update_partial_overlap_clips_witness :
    Commit.update
        [⟨"a", [0], [10], ["d1"], 3, Closed.both⟩,
         ⟨"a", [10], [20], ["d2"], 3, Closed.right⟩] "a" [5] [15] ["dn"] 5 Closed.both =
      Except.ok
        [⟨"a", [0], [5], ["d1"], 3, Closed.left⟩,
         ⟨"a", [5], [15], ["dn"], 5, Closed.both⟩,
         ⟨"a", [15], [20], ["d2"], 3, Closed.right⟩] :=
  (update_partial_overlap_clips
      [⟨"a", [0], [10], ["d1"], 3, Closed.both⟩,
       ⟨"a", [10], [20], ["d2"], 3, Closed.right⟩] "a" [5] [15] ["dn"] 5 Closed.both
      ⟨"a", [0], [10], ["d1"], 3, Closed.both⟩ ⟨"a", [10], [20], ["d2"], 3, Closed.right⟩
      (by decide) (by decide) (by decide) (by decide) (by decide) (by decide) (by decide)).1

/-- Claim C4: `Series._read` processes a matching revision by slicing it to
the matched range, filling a left hole (`match.start > start`) from the
strictly older remaining revisions and prepending, filling a right hole
from the older revisions and appending (no limit given), and it stops at
the first match; non-matching revisions are skipped. -/
theorem seriesRead_first_match_wins (info : RevInfo) (rest : List RevInfo)
    (start stop mstart mend : Idx)
    (hm : intersect info start stop = some (mstart, mend)) :
    seriesRead (info :: rest) start stop none =
      (if idxLt start mstart then seriesRead rest start mstart none else []) ++
        [⟨info, mstart, mend, Closed.both⟩] ++
        (if idxLt mend stop then seriesRead rest mend stop none else []) ∧
    (∀ skipped : RevInfo, intersect skipped start stop = none →
      seriesRead (skipped :: rest) start stop none = seriesRead rest start stop none) := by
  constructor
  · simp only [seriesRead, hm]
    cases h1 : idxLt start mstart <;> cases h2 : idxLt mend stop <;> simp [h1, h2]
  · intro skipped hskip
    simp [seriesRead, hskip]

/-- Witness for `seriesRead_first_match_wins`: a single revision covering
`[2, 8]` read over `[0, 10]` matches on `([2], [8])`, and the two hole
reads over the (empty) older revisions contribute nothing. -/
theorem seriesRead_first_match_wins_witness :
    seriesRead [⟨[2], [8], ["c"], 4⟩] [0] [10] none =
      [⟨⟨[2], [8], ["c"], 4⟩, [2], [8], Closed.both⟩] :=
  (seriesRead_first_match_wins ⟨[2], [8], ["c"], 4⟩ [] [0] [10] [2] [8] (by decide)).1

/-- Claim C5 (counterexample): the file created by `Changelog.commit` for a
root revision is not of the form `{parent_hex}-{child_hex}-{hextime}`: its
name contains no dash at all (the source writes
`".".join((parent, key))`, a two-part dot-joined name without any
timestamp). -/
theorem chlogCommit_filename_not_dashed :
    ¬ ∃ p c t : Name,
        (chlogCommit demoHash ⟨[]⟩ ["x"] (some phi)).2 = p ++ '-' :: c ++ '-' :: t := by
  rintro ⟨p, c, t, h⟩
  have hm : '-' ∈ (chlogCommit demoHash ⟨[]⟩ ["x"] (some phi)).2 := by
    rw [h]
    exact List.mem_append.mpr (Or.inr (List.mem_cons_self _ _))
  revert hm
  decide

/-- Claim C5 (amended): every file created by `Changelog.commit` is named
`{parent_hex}.{child_hex}` — the parent digest and the payload digest
joined by a dot, with no timestamp component — where the parent digest is
the explicit `parent` argument if given, the part after the first dot of
the current leaf name otherwise, and the zero-hash `phi` when the
changelog is empty. -/
theorem chlogCommit_filename_parent_dot_child (h : List String → Name)
    (pod : BPod (List String)) (items : List String) (p lf : Name) (pr : Name × Name)
    (hleaf : leafOf (BPod.keys pod) = some lf) (hsplit : splitFirstDot lf = some pr) :
    (chlogCommit h pod items (some p)).2 = p ++ dotChar :: h items ∧
    (chlogCommit h ⟨[]⟩ items none).2 = phi ++ dotChar :: h items ∧
    (chlogCommit h pod items none).2 = pr.2 ++ dotChar :: h items := by
  refine ⟨rfl, rfl, ?_⟩
  simp [chlogCommit, hleaf, hsplit]

/-- Witness for `chlogCommit_filename_parent_dot_child`: on a changelog
holding the single root revision `phi.aaa…a`, the leaf is that file and a
parentless commit is named `aaa…a.{digest}`. -/
theorem chlogCommit_filename_parent_dot_child_witness :
    (chlogCommit demoHash ⟨[(phi ++ dotChar :: List.replicate 40 'a', ["x"])]⟩ ["y"]
        (some phi)).2 = phi ++ dotChar :: demoHash ["y"] ∧
    (chlogCommit demoHash ⟨[]⟩ ["y"] none).2 = phi ++ dotChar :: demoHash ["y"] ∧
    (chlogCommit demoHash ⟨[(phi ++ dotChar :: List.replicate 40 'a', ["x"])]⟩ ["y"]
        none).2 = List.replicate 40 'a' ++ dotChar :: demoHash ["y"] :=
  chlogCommit_filename_parent_dot_child demoHash
    ⟨[(phi ++ dotChar :: List.replicate 40 'a', ["x"])]⟩ ["y"] phi
    (phi ++ dotChar :: List.replicate 40 'a') (phi, List.replicate 40 'a')
    (by decide) (by decide)

theorem splitDot_no_dot (a : Name) (ha : dotChar ∉ a) : splitDot a = [a] := by
  induction a with
  | nil => rfl
  | cons c cs ih =>
      have hc : ¬ c = dotChar := fun h => ha (h ▸ List.mem_cons_self c cs)
      have hcs : dotChar ∉ cs := fun hm => ha (List.mem_cons_of_mem _ hm)
      simp [splitDot, hc, ih hcs]

theorem splitDot_append (a b : Name) (ha : dotChar ∉ a) :
    splitDot (a ++ dotChar :: b) = a :: splitDot b := by
  induction a with
  | nil => simp [splitDot]
  | cons c cs ih =>
      have hc : ¬ c = dotChar := fun h => ha (h ▸ List.mem_cons_self c cs)
      have hcs : dotChar ∉ cs := fun hm => ha (List.mem_cons_of_mem _ hm)
      simp only [List.cons_append, splitDot, hc, if_false, List.append_eq]
      rw [ih hcs]

theorem logOf_append (pre post : List Name) :
    logOf (pre ++ post) =
      post.foldl
        (fun l n =>
          match splitDot n with
          | [p, c] => if p = c then l else addChild l p c
          | _ => l)
        (logOf pre) := by
  simp [logOf, List.foldl_append]

/-- Claim C10: `Changelog.log` ignores every revision file whose parent
digest equals its child digest, so such a file is invisible to every
depth-first traversal (`walk`, and hence `leaf` and `extract`, at every
depth); and committing items whose digest equals the current leaf's child
digest creates exactly such a file. -/
theorem selfparent_revision_invisible (hsh : List String → Name)
    (pod : BPod (List String)) (items : List String) (key lf x : Name)
    (hdot : dotChar ∉ key)
    (hleaf : leafOf (BPod.keys pod) = some lf)
    (hsplit : splitFirstDot lf = some (x, key))
    (hkey : hsh items = key) :
    (chlogCommit hsh pod items none).2 = key ++ dotChar :: key ∧
    splitDot (key ++ dotChar :: key) = [key, key] ∧
    (∀ pre post, logOf (pre ++ (key ++ dotChar :: key) :: post) = logOf (pre ++ post)) ∧
    (∀ pre post fuel root,
      walkAux (logOf (pre ++ (key ++ dotChar :: key) :: post)) fuel root =
        walkAux (logOf (pre ++ post)) fuel root) := by
  have hsd : splitDot (key ++ dotChar :: key) = [key, key] := by
    rw [splitDot_append _ _ hdot, splitDot_no_dot _ hdot]
  have hlog : ∀ pre post,
      logOf (pre ++ (key ++ dotChar :: key) :: post) = logOf (pre ++ post) := by
    intro pre post
    rw [logOf_append, logOf_append]
    simp [hsd]
  refine ⟨?_, hsd, hlog, ?_⟩
  · simp [chlogCommit, hleaf, hsplit, hkey]
  · intro pre post fuel root
    rw [hlog]

/-- Witness for `selfparent_revision_invisible`: with the leaf `phi.aaa…a`
and a payload hashing to `aaa…a`, the parentless commit creates the file
`aaa…a.aaa…a`, which `log` skips wherever it appears. -/
theorem selfparent_revision_invisible_witness :
    (chlogCommit demoHash ⟨[(phi ++ dotChar :: List.replicate 40 'a', ["x"])]⟩ ["y"]
        none).2 = List.replicate 40 'a' ++ dotChar :: List.replicate 40 'a' ∧
    splitDot (List.replicate 40 'a' ++ dotChar :: List.replicate 40 'a') =
      [List.replicate 40 'a', List.replicate 40 'a'] ∧
    (∀ pre post,
      logOf (pre ++ (List.replicate 40 'a' ++ dotChar :: List.replicate 40 'a') :: post) =
        logOf (pre ++ post)) ∧
    (∀ pre post fuel root,
      walkAux
          (logOf
            (pre ++ (List.replicate 40 'a' ++ dotChar :: List.replicate 40 'a') :: post))
          fuel root =
        walkAux (logOf (pre ++ post)) fuel root) :=
  selfparent_revision_invisible demoHash
    ⟨[(phi ++ dotChar :: List.replicate 40 'a', ["x"])]⟩ ["y"]
    (List.replicate 40 'a') (phi ++ dotChar :: List.replicate 40 'a') phi
    (by decide) (by decide) (by decide) (by decide)

theorem gcSweepFile_active (active : List Name) (nowTs deadline d : Name)
    (hda : d ∈ active) : gcSweepFile active nowTs deadline d = some [d] := by
  simp [gcSweepFile, hda]

theorem gcSweepFile_suffixed_active (active : List Name) (nowTs deadline base ext : Name)
    (hb : base ∈ active) (hbd : dotChar ∉ base) (hed : dotChar ∉ ext)
    (hna : base ++ dotChar :: ext ∉ active) :
    gcSweepFile active nowTs deadline (base ++ dotChar :: ext) =
      some [if deadline < ext then base ++ dotChar :: ext else base] := by
  have hdot : dotChar ∈ base ++ dotChar :: ext :=
    List.mem_append.mpr (Or.inr (List.mem_cons_self _ _))
  have hsd : splitDot (base ++ dotChar :: ext) = [base, ext] := by
    rw [splitDot_append _ _ hbd, splitDot_no_dot _ hed]
  have hdec : (!(decide (dotChar ∈ base ++ dotChar :: ext))) = false := by simp [hdot]
  simp only [gcSweepFile, hna, if_false, hdec, Bool.false_eq_true, hsd, hb, if_true]
  by_cases hdl : deadline < ext <;> simp [hdl]

theorem gcSweep_mem (active : List Name) (nowTs deadline : Name) :
    ∀ allDig res d out, gcSweep active nowTs deadline allDig = some res →
      d ∈ allDig → gcSweepFile active nowTs deadline d = some out →
      ∀ x, x ∈ out → x ∈ res := by
  intro allDig
  induction allDig with
  | nil => intro res d out _ hd; simp at hd
  | cons a as ih =>
      intro res d out hs hd hf x hx
      simp only [gcSweep] at hs
      cases hfa : gcSweepFile active nowTs deadline a with
      | none => rw [hfa] at hs; simp at hs
      | some ra =>
          rw [hfa] at hs
          cases hrs : gcSweep active nowTs deadline as with
          | none => rw [hrs] at hs; simp at hs
          | some rs =>
              rw [hrs] at hs
              simp only [Option.some.injEq] at hs
              subst hs
              rcases List.mem_cons.mp hd with hda | hdas
              · subst hda
                rw [hfa] at hf
                cases hf
                exact List.mem_append.mpr (Or.inl hx)
              · exact List.mem_append.mpr (Or.inr (ih rs d out hrs hdas hf x hx))

/-- Claim C6: the GC sweep never removes a blob whose digest is active
(referenced by a reachable revision): a name in the active set is left in
place, and a soft-deleted name `base.ext` whose base digest is active is
never hard-deleted — it survives as-is while its suffix is newer than the
deadline and is restored to `base` (suffix removed) once past it. -/
theorem gc_keeps_referenced_blobs (active : List Name) (nowTs deadline : Name)
    (allDig res : List Name) (d base ext : Name)
    (hs : gcSweep active nowTs deadline allDig = some res) :
    (d ∈ allDig → d ∈ active → d ∈ res) ∧
    (base ++ dotChar :: ext ∈ allDig → base ∈ active →
      dotChar ∉ base → dotChar ∉ ext → base ++ dotChar :: ext ∉ active →
      ((base ++ dotChar :: ext) ∈ res ∨ base ∈ res) ∧
        (¬ deadline < ext → base ∈ res)) := by
  constructor
  · intro hd hda
    exact gcSweep_mem active nowTs deadline allDig res d [d] hs hd
      (gcSweepFile_active active nowTs deadline d hda) d (List.mem_singleton.mpr rfl)
  · intro hd hb hbd hed hna
    have hf := gcSweepFile_suffixed_active active nowTs deadline base ext hb hbd hed hna
    have hkeep := gcSweep_mem active nowTs deadline allDig res (base ++ dotChar :: ext)
      [if deadline < ext then base ++ dotChar :: ext else base] hs hd hf
    constructor
    · by_cases hdl : deadline < ext
      · exact Or.inl (hkeep _ (by simp [hdl]))
      · exact Or.inr (hkeep _ (by simp [hdl]))
    · intro hdl
      exact hkeep _ (by simp [hdl])

/-- Witness for `gc_keeps_referenced_blobs`: with active digests `ab` and
`cd`, the listed files `ab` (plain, active) and `cd.3` (soft-deleted, base
active, suffix `3` older than deadline `5`) both survive the sweep — `ab`
untouched and `cd.3` restored to `cd`. -/
theorem gc_keeps_referenced_blobs_witness :
    (['a', 'b'] ∈ (['a', 'b'] :: [['c', 'd', '.', '3']] : List Name) →
      ['a', 'b'] ∈ [['a', 'b'], ['c', 'd']] → (['a', 'b'] : Name) ∈ [['a', 'b'], ['c', 'd']]) ∧
    ((['c', 'd'] : Name) ++ dotChar :: ['3'] ∈ (['a', 'b'] :: [['c', 'd', '.', '3']] : List Name) →
      (['c', 'd'] : Name) ∈ [['a', 'b'], ['c', 'd']] →
      dotChar ∉ (['c', 'd'] : Name) → dotChar ∉ (['3'] : Name) →
      (['c', 'd'] : Name) ++ dotChar :: ['3'] ∉ ([['a', 'b'], ['c', 'd']] : List Name) →
      (((['c', 'd'] : Name) ++ dotChar :: ['3']) ∈ ([['a', 'b'], ['c', 'd']] : List Name) ∨
          (['c', 'd'] : Name) ∈ ([['a', 'b'], ['c', 'd']] : List Name)) ∧
        (¬ (['5'] : Name) < ['3'] → (['c', 'd'] : Name) ∈ ([['a', 'b'], ['c', 'd']] : List Name))) :=
  gc_keeps_referenced_blobs [['a', 'b'], ['c', 'd']] ['9'] ['5']
    [['a', 'b'], ['c', 'd', '.', '3']] [['a', 'b'], ['c', 'd']] ['a', 'b'] ['c', 'd'] ['3']
    (by decide)

theorem insertFile_ignores_present {V : Type} (fs : List (Name × V)) (n : Name) (d d2 : V) :
    insertFile (insertFile fs n d) n d2 = insertFile fs n d := by
  induction fs with
  | nil => simp [insertFile]
  | cons f fs ih =>
      by_cases h1 : f.1 = n
      · simp [insertFile, h1]
      · by_cases h2 : n < f.1
        · simp [insertFile, h1, h2]
        · simp [insertFile, h1, h2, ih]

theorem setEntry_found (es : List (String × MNode)) (k : String) (v : MNode)
    (hf : findEntry es k = some v) : setEntry es k v = es := by
  induction es with
  | nil => simp [findEntry] at hf
  | cons e es ih =>
      by_cases h1 : e.1 = k
      · simp only [findEntry, h1, if_true, Option.some.injEq] at hf
        subst hf
        subst h1
        simp [setEntry]
      · simp only [findEntry, h1, if_false] at hf
        simp [setEntry, h1, ih hf]

theorem mwrite_present_noop (key : List String) :
    ∀ (root : MNode) (d d2 : List Nat), mread root key = some d →
      mwrite root key d2 = root := by
  induction key with
  | nil => intro root d d2 hr; cases root <;> simp [mread] at hr
  | cons frag rest ih =>
      intro root d d2 hr
      cases root with
      | file bs => simp [mread] at hr
      | dir es =>
          cases rest with
          | nil =>
              simp only [mread] at hr
              cases hfe : findEntry es frag with
              | none => rw [hfe] at hr; simp at hr
              | some nd => simp [mwrite, hfe]
          | cons frag2 rest2 =>
              simp only [mread] at hr
              cases hfe : findEntry es frag with
              | none => rw [hfe] at hr; simp at hr
              | some child =>
                  rw [hfe] at hr
                  simp only [mwrite, hfe]
                  rw [ih child d d2 hr, setEntry_found es frag child hfe]

/-- Claim C8: revision writes are idempotent.  Committing the same payload
with the same parent twice yields the same child digest, hence the same
file name, and leaves the changelog pod exactly as after the first commit;
and a pod write to an already-present key is a no-op that leaves the
stored bytes unchanged (`MemPOD.write`). -/
theorem writes_idempotent (h : List String → Name) (pod : BPod (List String))
    (items : List String) (p : Name) (root : MNode) (key : List String)
    (d d2 : List Nat) (hr : mread root key = some d) :
    ((chlogCommit h (chlogCommit h pod items (some p)).1 items (some p)).2 =
        (chlogCommit h pod items (some p)).2 ∧
      (chlogCommit h (chlogCommit h pod items (some p)).1 items (some p)).1 =
        (chlogCommit h pod items (some p)).1) ∧
    (mwrite root key d2 = root ∧ mread (mwrite root key d2) key = some d) := by
  refine ⟨⟨rfl, ?_⟩, ?_, ?_⟩
  · show BPod.write (BPod.write pod (p ++ dotChar :: h items) items)
        (p ++ dotChar :: h items) items =
      BPod.write pod (p ++ dotChar :: h items) items
    simp [BPod.write, insertFile_ignores_present]
  · exact mwrite_present_noop key root d d2 hr
  · rw [mwrite_present_noop key root d d2 hr]
    exact hr

/-- Witness for `writes_idempotent`: a double commit of `["x"]` under
parent `phi` and a re-write of the present key `a/b`. -/
theorem writes_idempotent_witness :
    ((chlogCommit demoHash (chlogCommit demoHash ⟨[]⟩ ["x"] (some phi)).1 ["x"]
          (some phi)).2 =
        (chlogCommit demoHash ⟨[]⟩ ["x"] (some phi)).2 ∧
      (chlogCommit demoHash (chlogCommit demoHash ⟨[]⟩ ["x"] (some phi)).1 ["x"]
          (some phi)).1 =
        (chlogCommit demoHash ⟨[]⟩ ["x"] (some phi)).1) ∧
    (mwrite (MNode.dir [("a", MNode.dir [("b", MNode.file [1, 2])])]) ["a", "b"] [9] =
        MNode.dir [("a", MNode.dir [("b", MNode.file [1, 2])])] ∧
      mread (mwrite (MNode.dir [("a", MNode.dir [("b", MNode.file [1, 2])])]) ["a", "b"] [9])
          ["a", "b"] = some [1, 2]) :=
  writes_idempotent demoHash ⟨[]⟩ ["x"] phi
    (MNode.dir [("a", MNode.dir [("b", MNode.file [1, 2])])]) ["a", "b"] [1, 2] [9] rfl

theorem mem_insertFile {V : Type} (fs : List (Name × V)) (n : Name) (d : V)
    (b : Name × V) (hb : b ∈ insertFile fs n d) : b ∈ fs ∨ b = (n, d) := by
  induction fs with
  | nil => simpa [insertFile] using hb
  | cons f fs ih =>
      by_cases h1 : f.1 = n
      · simp only [insertFile, h1, if_true] at hb
        exact Or.inl hb
      · by_cases h2 : n < f.1
        · simp only [insertFile, h1, h2, if_false, if_true, List.mem_cons] at hb
          rcases hb with hb | hb | hb
          · exact Or.inr hb
          · exact Or.inl (List.mem_cons.mpr (Or.inl hb))
          · exact Or.inl (List.mem_cons.mpr (Or.inr hb))
        · simp only [insertFile, h1, h2, if_false, List.mem_cons] at hb
          rcases hb with hb | hb
          · exact Or.inl (List.mem_cons.mpr (Or.inl hb))
          · rcases ih hb with hc | hc
            · exact Or.inl (List.mem_cons.mpr (Or.inr hc))
            · exact Or.inr hc

theorem insertFile_keys {V : Type} (fs : List (Name × V)) (n : Name) (d : V) (a : Name) :
    a ∈ (insertFile fs n d).map Prod.fst ↔ a ∈ fs.map Prod.fst ∨ a = n := by
  induction fs with
  | nil => simp [insertFile]
  | cons f fs ih =>
      by_cases h1 : f.1 = n
      · subst h1
        simp only [insertFile, if_true, List.map_cons, List.mem_cons]
        tauto
      · by_cases h2 : n < f.1
        · simp only [insertFile, h1, h2, if_false, if_true, List.map_cons, List.mem_cons]
          tauto
        · simp only [insertFile, h1, h2, if_false, List.map_cons, List.mem_cons, ih]
          tauto

theorem insertFile_wf {V : Type} (fs : List (Name × V)) (n : Name) (d : V)
    (hfs : List.Pairwise (fun a b : Name × V => a.1 < b.1) fs) :
    List.Pairwise (fun a b : Name × V => a.1 < b.1) (insertFile fs n d) := by
  induction fs with
  | nil => simp [insertFile]
  | cons f fs ih =>
      rcases List.pairwise_cons.mp hfs with ⟨hf, hfs2⟩
      by_cases h1 : f.1 = n
      · rw [show insertFile (f :: fs) n d = f :: fs from by
          unfold insertFile
          exact if_pos h1]
        exact hfs
      · by_cases h2 : n < f.1
        · simp only [insertFile, h1, h2, if_false, if_true]
          refine List.pairwise_cons.mpr ⟨?_, hfs⟩
          intro b hb
          rcases List.mem_cons.mp hb with hb | hb
          · exact hb ▸ h2
          · exact lt_trans h2 (hf b hb)
        · simp only [insertFile, h1, h2, if_false]
          refine List.pairwise_cons.mpr ⟨?_, ih hfs2⟩
          intro b hb
          rcases mem_insertFile fs n d b hb with hc | hc
          · exact hf b hc
          · have h3 : f.1 < n := by
              rcases lt_trichotomy f.1 n with h | h | h
              · exact h
              · exact absurd h h1
              · exact absurd h h2
            exact hc ▸ h3

theorem find?_insertFile_ne {V : Type} (fs : List (Name × V)) (n m : Name) (d : V)
    (hm : m ≠ n) :
    (insertFile fs n d).find? (fun f => decide (f.1 = m)) =
      fs.find? (fun f => decide (f.1 = m)) := by
  have hnm : (decide (n = m)) = false := by simp [Ne.symm hm]
  induction fs with
  | nil => simp [insertFile, List.find?, hnm]
  | cons f fs ih =>
      by_cases h1 : f.1 = n
      · simp only [insertFile, h1, if_true]
      · by_cases h2 : n < f.1
        · simp only [insertFile, h1, h2, if_false, if_true]
          simp [List.find?, hnm]
        · simp only [insertFile, h1, h2, if_false]
          by_cases h3 : f.1 = m
          · simp [List.find?, h3]
          · simp [List.find?, h3, ih]

theorem find?_insertFile_self {V : Type} (fs : List (Name × V)) (n : Name) (d : V)
    (hn : n ∉ fs.map Prod.fst) :
    (insertFile fs n d).find? (fun f => decide (f.1 = n)) = some (n, d) := by
  induction fs with
  | nil => simp [insertFile, List.find?]
  | cons f fs ih =>
      have hfn : ¬ f.1 = n := by
        intro h
        exact hn (List.mem_map.mpr ⟨f, List.mem_cons_self f fs, h⟩)
      have hn2 : n ∉ fs.map Prod.fst := fun h => hn (List.mem_cons_of_mem _ h)
      by_cases h2 : n < f.1
      · simp [insertFile, hfn, h2, List.find?]
      · simp [insertFile, hfn, h2, List.find?, ih hn2]

theorem readWrite_self {V : Type} (p : BPod V) (n : Name) (d : V)
    (hn : n ∉ BPod.keys p) : BPod.read (BPod.write p n d) n = some d := by
  simp [BPod.read, BPod.write, find?_insertFile_self p.files n d hn]

theorem readWrite_ne {V : Type} (p : BPod V) (n m : Name) (d : V) (hm : m ≠ n) :
    BPod.read (BPod.write p n d) m = BPod.read p m := by
  simp [BPod.read, BPod.write, find?_insertFile_ne p.files n m d hm]

theorem read_of_mem_wf {V : Type} (p : BPod V) (k : Name) (hk : k ∈ BPod.keys p) :
    ∃ v, (k, v) ∈ p.files ∧ BPod.read p k = some v := by
  rcases p with ⟨fs⟩
  induction fs with
  | nil => simp [BPod.keys] at hk
  | cons f fs ih =>
      by_cases h1 : f.1 = k
      · refine ⟨f.2, ?_, ?_⟩
        · exact List.mem_cons.mpr (Or.inl (by rw [← h1]))
        · simp [BPod.read, List.find?, h1]
      · have hk2 : k ∈ BPod.keys (⟨fs⟩ : BPod V) := by
          simp only [BPod.keys, List.map_cons, List.mem_cons] at hk
          rcases hk with hk | hk
          · exact absurd hk.symm h1
          · exact hk
        rcases ih hk2 with ⟨v, hv1, hv2⟩
        refine ⟨v, List.mem_cons.mpr (Or.inr hv1), ?_⟩
        show ((f :: fs).find? (fun f => decide (f.1 = k))).map Prod.snd = some v
        rw [List.find?_cons_of_neg _ (by simp [h1])]
        exact hv2

theorem pullAux_keys {V : Type} (l : BPod V) (fs : List (Name × V)) (acc : BPod V)
    (a : Name) :
    a ∈ BPod.keys
        (fs.foldl (fun acc f => if f.1 ∈ BPod.keys l then acc else BPod.write acc f.1 f.2)
          acc) ↔
      a ∈ BPod.keys acc ∨ (a ∈ fs.map Prod.fst ∧ a ∉ BPod.keys l) := by
  induction fs generalizing acc with
  | nil => simp
  | cons f fs ih =>
      simp only [List.foldl_cons, ih, List.map_cons, List.mem_cons]
      by_cases hf : f.1 ∈ BPod.keys l
      · have hfa : a = f.1 → a ∈ BPod.keys l := fun he => he ▸ hf
        simp only [hf, if_true]
        tauto
      · have hfa : a = f.1 → a ∉ BPod.keys l := fun he => he ▸ hf
        have hw : a ∈ BPod.keys (BPod.write acc f.1 f.2) ↔ a ∈ BPod.keys acc ∨ a = f.1 :=
          insertFile_keys acc.files f.1 f.2 a
        simp only [hf, if_false, hw]
        tauto

theorem pullAux_wf {V : Type} (l : BPod V) (fs : List (Name × V)) (acc : BPod V)
    (hacc : BPod.wf acc) :
    BPod.wf
      (fs.foldl (fun acc f => if f.1 ∈ BPod.keys l then acc else BPod.write acc f.1 f.2)
        acc) := by
  induction fs generalizing acc with
  | nil => exact hacc
  | cons f fs ih =>
      simp only [List.foldl_cons]
      by_cases hf : f.1 ∈ BPod.keys l
      · simpa [hf] using ih acc hacc
      · simp only [hf, if_false]
        exact ih _ (insertFile_wf acc.files f.1 f.2 hacc)

theorem pullAux_read_skip {V : Type} (l : BPod V) (fs : List (Name × V)) (acc : BPod V)
    (k : Name) (hk : ∀ f ∈ fs, f.1 ≠ k) :
    BPod.read
        (fs.foldl (fun acc f => if f.1 ∈ BPod.keys l then acc else BPod.write acc f.1 f.2)
          acc) k =
      BPod.read acc k := by
  induction fs generalizing acc with
  | nil => rfl
  | cons f fs ih =>
      simp only [List.foldl_cons]
      have hfk : f.1 ≠ k := hk f (List.mem_cons_self f fs)
      have hk2 : ∀ f2 ∈ fs, f2.1 ≠ k := fun f2 h2 => hk f2 (List.mem_cons_of_mem _ h2)
      by_cases hf : f.1 ∈ BPod.keys l
      · simpa [hf] using ih acc hk2
      · simp only [hf, if_false]
        rw [ih _ hk2, readWrite_ne acc f.1 k f.2 (Ne.symm hfk)]

theorem pullAux_read_found {V : Type} (l : BPod V) (fs : List (Name × V)) (acc : BPod V)
    (k : Name) (v : V) (hnd : (fs.map Prod.fst).Nodup) (hmem : (k, v) ∈ fs)
    (hkl : k ∉ BPod.keys l) (hka : k ∉ BPod.keys acc) :
    BPod.read
        (fs.foldl (fun acc f => if f.1 ∈ BPod.keys l then acc else BPod.write acc f.1 f.2)
          acc) k =
      some v := by
  induction fs generalizing acc with
  | nil => simp at hmem
  | cons f fs ih =>
      simp only [List.map_cons, List.nodup_cons] at hnd
      rcases hnd with ⟨hf1, hnd2⟩
      simp only [List.foldl_cons]
      rcases List.mem_cons.mp hmem with hfk | hmem2
      · have hkeq : f.1 = k := by rw [← hfk]
        have hrest : ∀ f2 ∈ fs, f2.1 ≠ k := by
          intro f2 h2 hne
          exact hf1 (hkeq ▸ hne ▸ List.mem_map.mpr ⟨f2, h2, rfl⟩)
        rw [hkeq] at *
        simp only [hkl, if_false]
        rw [pullAux_read_skip l fs _ k hrest]
        rw [← hfk]
        exact readWrite_self acc k v hka
      · have hfk : f.1 ≠ k := by
          intro hne
          exact hf1 (hne ▸ List.mem_map.mpr ⟨(k, v), hmem2, rfl⟩)
        by_cases hf : f.1 ∈ BPod.keys l
        · simpa [hf] using ih acc hnd2 hmem2 hka
        · simp only [hf, if_false]
          have hka2 : k ∉ BPod.keys (BPod.write acc f.1 f.2) := by
            intro hin
            rcases (insertFile_keys acc.files f.1 f.2 k).mp hin with hc | hc
            · exact hka hc
            · exact hfk hc.symm
          exact ih _ hnd2 hmem2 hka2

/-- Claim C7: when every local revision file is also present on the remote
(no local write), `Changelog.pull` makes the local file set equal to the
remote one, each missing file being copied verbatim, and the local `leaf()`
then equals the remote `leaf()`. -/
theorem pull_no_local_write {V : Type} (l r : BPod V) (hl : BPod.wf l) (hr : BPod.wf r)
    (hsub : ∀ k, k ∈ BPod.keys l → k ∈ BPod.keys r) :
    BPod.keys (chlogPull l r) = BPod.keys r ∧
    (∀ k v, k ∉ BPod.keys l → (k, v) ∈ r.files →
      BPod.read (chlogPull l r) k = some v) ∧
    leafOf (BPod.keys (chlogPull l r)) = leafOf (BPod.keys r) ∧
    (∀ fuel, walkNames (BPod.keys (chlogPull l r)) fuel = walkNames (BPod.keys r) fuel) := by
  have hsorted : ∀ p : BPod V, BPod.wf p → List.Pairwise (· < ·) (BPod.keys p) := by
    intro p hp
    exact List.pairwise_map.mpr hp
  have hnodup : ∀ p : BPod V, BPod.wf p → (BPod.keys p).Nodup := by
    intro p hp
    exact List.Pairwise.imp (fun h => ne_of_lt h) (hsorted p hp)
  have hwf2 : BPod.wf (chlogPull l r) := pullAux_wf l r.files l hl
  have hmemiff : ∀ a, a ∈ BPod.keys (chlogPull l r) ↔ a ∈ BPod.keys r := by
    intro a
    rw [show chlogPull l r =
        r.files.foldl
          (fun acc f => if f.1 ∈ BPod.keys l then acc else BPod.write acc f.1 f.2) l
      from rfl]
    rw [pullAux_keys]
    constructor
    · intro hc
      rcases hc with hc | hc
      · exact hsub a hc
      · exact hc.1
    · intro hc
      by_cases hal : a ∈ BPod.keys l
      · exact Or.inl hal
      · exact Or.inr ⟨hc, hal⟩
  haveI : IsAntisymm Name (· < ·) :=
    ⟨fun a b h1 h2 => absurd h2 (lt_asymm h1)⟩
  have hkeys : BPod.keys (chlogPull l r) = BPod.keys r := by
    refine List.eq_of_perm_of_sorted ?_ (hsorted _ hwf2) (hsorted _ hr)
    exact (List.perm_ext_iff_of_nodup (hnodup _ hwf2) (hnodup _ hr)).mpr hmemiff
  refine ⟨hkeys, ?_, by rw [hkeys], fun fuel => by rw [hkeys]⟩
  intro k v hkl hmem
  exact pullAux_read_found l r.files l k v (hnodup r hr) hmem hkl hkl

/-- Witness for `pull_no_local_write`: pulling `{a ↦ x, b ↦ y}` into
`{a ↦ x}` copies `b` and leaves the key sets equal. -/
theorem pull_no_local_write_witness :
    BPod.keys (chlogPull (⟨[(['a'], ["x"])]⟩ : BPod (List String))
        ⟨[(['a'], ["x"]), (['b'], ["y"])]⟩) =
      BPod.keys (⟨[(['a'], ["x"]), (['b'], ["y"])]⟩ : BPod (List String)) ∧
    (∀ k v, k ∉ BPod.keys (⟨[(['a'], ["x"])]⟩ : BPod (List String)) →
      (k, v) ∈ [((['a'] : Name), ["x"]), (['b'], ["y"])] →
      BPod.read (chlogPull (⟨[(['a'], ["x"])]⟩ : BPod (List String))
          ⟨[(['a'], ["x"]), (['b'], ["y"])]⟩) k = some v) ∧
    leafOf (BPod.keys (chlogPull (⟨[(['a'], ["x"])]⟩ : BPod (List String))
        ⟨[(['a'], ["x"]), (['b'], ["y"])]⟩)) =
      leafOf (BPod.keys (⟨[(['a'], ["x"]), (['b'], ["y"])]⟩ : BPod (List String))) ∧
    (∀ fuel, walkNames (BPod.keys (chlogPull (⟨[(['a'], ["x"])]⟩ : BPod (List String))
        ⟨[(['a'], ["x"]), (['b'], ["y"])]⟩)) fuel =
      walkNames (BPod.keys (⟨[(['a'], ["x"]), (['b'], ["y"])]⟩ : BPod (List String))) fuel) :=
  pull_no_local_write ⟨[(['a'], ["x"])]⟩ ⟨[(['a'], ["x"]), (['b'], ["y"])]⟩
    (by simp [BPod.wf]) (by simp [BPod.wf]; decide)
    (by intro k hk; simp [BPod.keys] at hk; simp [BPod.keys, hk])

end Jensen
